import Mathlib

/-!
Verification of the GhostHunter fetch-filter-aggregate pipeline and snapshot
resolver. Go strings are embedded as lists of characters (`Str`); the
line-splitting, regular-expression matching, extension grouping, file
persistence and snapshot parsing logic of `network.go`, `main.go`,
`processor.go` and `scanner.go` are translated into executable Lean
definitions, and the documented properties of the pipeline are proved or
refuted against them.
-/

/-- Go strings are modelled as lists of characters. -/
abbrev Str : Type := List Char

/-! ## Line splitting and joining

`strings.Split(s, "\n")` and `strings.Join(ls, "\n")` from the Go standard
library, specialised to the newline separator as the source always uses them.
-/

/-- Helper for `splitLines`: returns the first line of `s` and the list of
remaining lines.  Mirrors `strings.Split(s, "\n")`, which always yields at
least one (possibly empty) piece. -/
def splitAux : Str → Str × List Str
  | [] => ([], [])
  | c :: r =>
    let p := splitAux r
    if c = '\n' then ([], p.1 :: p.2) else (c :: p.1, p.2)

/-- Model of Go `strings.Split(s, "\n")`. -/
def splitLines (s : Str) : List Str :=
  (splitAux s).1 :: (splitAux s).2

/-- Model of Go `strings.Join(ls, "\n")`. -/
def joinLines : List Str → Str
  | [] => []
  | [l] => l
  | l :: ls => l ++ '\n' :: joinLines ls

/-! ## Extension filter (`processor.go`, `filterURLs`)

The source compiles the pattern built from the configured tokens,
matching a literal dot, one of the tokens, an optional query suffix and the
end of the line, and keeps the non-empty lines that match.  The compiled
matcher is modelled by `reMatch` below; a token may contain backslash-dot
escapes (such as the documented tar.gz token), whose literal denotation is
computed by `denoteTok`.  The model is faithful for token lists whose tokens
are alphanumeric or dot-escaped literals (`wfTok`), which is exactly the
precondition stated by the specification; lines produced by `splitLines`
never contain a newline, so the dot-star in the query group never meets one.
-/

/-- Character class of the extraction pattern in `saveResultsByExtension`. -/
def isAlnum (c : Char) : Bool :=
  ('a' ≤ c && c ≤ 'z') || ('A' ≤ c && c ≤ 'Z') || ('0' ≤ c && c ≤ '9')

/-- Boolean test for the optional query-suffix group followed by end of line:
the remainder must be empty or begin with a question mark. -/
def suffixOk : Str → Bool
  | [] => true
  | c :: _ => c = '?'

/-- Literal string denoted by one configured token: a backslash-dot escape
stands for a literal dot, every other character stands for itself. -/
def denoteTok : Str → Str
  | [] => []
  | '\\' :: '.' :: r => '.' :: denoteTok r
  | c :: r => c :: denoteTok r

/-- Well-formed token: a sequence of alphanumeric characters and
backslash-dot escapes.  This is the precondition under which the compiled
alternation behaves as literal string alternation. -/
def wfTok : Str → Bool
  | [] => true
  | '\\' :: '.' :: r => wfTok r
  | c :: r => isAlnum c && wfTok r

/-- Does some token literal match at this position?  The dot has just been
consumed; one alternative must be a prefix of `r` and the remainder must
satisfy the optional-query-then-end condition. -/
def matchHere (lits : List Str) (r : Str) : Bool :=
  lits.any (fun e => e.isPrefixOf r && suffixOk (r.drop e.length))

/-- Model of `regexp.MatchString` for the filter pattern: the pattern is
unanchored on the left, so a match may start at any position. -/
def reMatch (lits : List Str) : Str → Bool
  | [] => false
  | c :: r => ((c == '.') && matchHere lits r) || reMatch lits r

/-- Model of `filterURLs` (processor.go): split the data on newlines and
keep the non-empty lines on which the compiled pattern matches. -/
def filterURLs (data : Str) (exts : List Str) : List Str :=
  (splitLines data).filter (fun l => !l.isEmpty && reMatch (exts.map denoteTok) l)

/-- Specification-side description of the optional query suffix: nothing at
all, or a question mark followed by anything. -/
def QuerySuffix (suf : Str) : Prop :=
  suf = [] ∨ ∃ rest, suf = '?' :: rest

/-- Specification-side description of the filter pattern, written from the
specification text: a literal dot, the literal denoted by one of the
configured tokens, an optional query suffix, then end of line. -/
def MatchesSpec (exts : List Str) (l : Str) : Prop :=
  ∃ pre e suf, e ∈ exts ∧ l = pre ++ '.' :: (denoteTok e ++ suf) ∧ QuerySuffix suf

/-! ## Extension aggregator (`processor.go`, `saveResultsByExtension`)

The aggregator re-derives the trailing extension of each filtered URL with
the looser pattern (a dot, a nonempty alphanumeric run, an optional query
suffix, end of line), groups URLs by that token, writes one file per group
named domain.ext.txt whose content is the group joined by newlines, and sums
the group sizes into a shared counter under a mutex.
-/

/-- Model of `re.FindStringSubmatch` group 1 for the extraction pattern: the
leftmost dot followed by a nonempty maximal alphanumeric run whose remainder
is empty or a query string; `none` when no position matches. -/
def extractExt : Str → Option Str
  | [] => none
  | c :: r =>
    if c = '.' then
      if !(r.takeWhile isAlnum).isEmpty && suffixOk (r.dropWhile isAlnum) then
        some (r.takeWhile isAlnum)
      else extractExt r
    else extractExt r

/-- Specification-side description of an extractable trailing extension:
the URL decomposes around a dot into a nonempty alphanumeric token followed
by an optional query suffix. -/
def HasExt (l : Str) : Prop :=
  ∃ pre e suf, l = pre ++ '.' :: (e ++ suf) ∧ e ≠ [] ∧
    (∀ c ∈ e, isAlnum c = true) ∧ QuerySuffix suf

/-- Append `u` to the group of `e` in an association list, creating the group
at the end on first discovery.  Models `extensionMap[ext] = append(...)`. -/
def insertGroup : List (Str × List Str) → Str → Str → List (Str × List Str)
  | [], e, u => [(e, [u])]
  | (k, g) :: rest, e, u =>
    if k = e then (k, g ++ [u]) :: rest else (k, g) :: insertGroup rest e u

/-- One step of the grouping loop of `saveResultsByExtension`: URLs without
an extractable extension are silently dropped. -/
def groupStep (m : List (Str × List Str)) (u : Str) : List (Str × List Str) :=
  match extractExt u with
  | none => m
  | some e => insertGroup m e u

/-- The extension map built by the grouping loop, as an association list in
first-discovery order. -/
def groupByExt (urls : List Str) : List (Str × List Str) :=
  urls.foldl groupStep []

/-- Group lookup in the association list; the empty list stands for an
absent key. -/
def lookupGroup : List (Str × List Str) → Str → List Str
  | [], _ => []
  | (k, g) :: rest, e => if k = e then g else lookupGroup rest e

/-- Keys of the association list, in order. -/
def keysOf (m : List (Str × List Str)) : List Str := m.map (fun p => p.1)

/-- Output file name for one group: domain.ext.txt. -/
def fileName (domain ext : Str) : Str :=
  domain ++ '.' :: (ext ++ ".txt".data)

/-- The set of file writes issued by `saveResultsByExtension`: one write per
group, whose content is the group's URLs joined by newlines.  The goroutines
write distinct files, so only the set matters; completion order is an
arbitrary permutation of this list. -/
def writeOps (urls : List Str) (domain : Str) : List (Str × Str) :=
  (groupByExt urls).map (fun g => (fileName domain g.1, joinLines g.2))

/-- One file write applied to a filesystem state. -/
def applyWrite (fs : Str → Option Str) (w : Str × Str) : Str → Option Str :=
  fun f => if f = w.1 then some w.2 else fs f

/-- Filesystem after a sequence of writes starting from the empty state. -/
def runWrites (ws : List (Str × Str)) : Str → Option Str :=
  ws.foldl applyWrite (fun _ => none)

/-- Value of the shared `totalURLs` counter after the goroutines finished in
the given order: each goroutine adds its group's size under the mutex, so
each addition is atomic. -/
def grandTotal (order : List (Str × List Str)) : Nat :=
  order.foldl (fun t g => t + g.2.length) 0

/-- Sum of the per-group counts shown in the summary rows. -/
def sumGroupCounts (order : List (Str × List Str)) : Nat :=
  (order.map (fun g => g.2.length)).sum

/-- Number of URLs with an extractable trailing extension. -/
def countExtractable (urls : List Str) : Nat :=
  (urls.filter (fun u => (extractExt u).isSome)).length

/-! ## Snapshot resolver (`scanner.go`, `fetchSnapshots`)

Worker-pool resolution of per-URL snapshot history.  Each worker takes URLs
from the queue; an empty URL is skipped; request-construction and transport
failures skip the URL; HTTP 429 sleeps ten seconds and drops the URL; any
other non-200 status skips the URL; an empty body or one containing an HTML
marker is treated as no data; otherwise the body is split into lines and,
only when the split yields more than one piece, each non-empty line with at
least two whitespace-separated fields whose first field survives the
14-digit timestamp parse produces a snapshot record; the per-URL block is
appended to the shared report file without holding the mutex, while the
summary row, counting the split length minus one, is appended under the
mutex.
-/

/-- Whitespace recognised by Go `strings.Fields` (the ASCII cases). -/
def isSpace (c : Char) : Bool :=
  c = ' ' || c = '\t' || c = '\n' || c = '\r' || c = '\x0b' || c = '\x0c'

/-- Accumulator-based splitting of a line into whitespace-separated fields. -/
def fieldsAux : Str → Str → List Str
  | [], acc => if acc.isEmpty then [] else [acc.reverse]
  | c :: r, acc =>
    if isSpace c then
      if acc.isEmpty then fieldsAux r [] else acc.reverse :: fieldsAux r []
    else fieldsAux r (c :: acc)

/-- Model of Go `strings.Fields`. -/
def fields (s : Str) : List Str := fieldsAux s []

/-- Decimal digit test. -/
def isDigit (c : Char) : Bool := '0' ≤ c && c ≤ '9'

/-- Numeric value of a digit string. -/
def toNum (s : Str) : Nat :=
  s.foldl (fun a c => a * 10 + (c.toNat - '0'.toNat)) 0

/-- Gregorian leap-year rule used by Go `time`. -/
def isLeapYear (y : Nat) : Bool :=
  y % 4 = 0 && (y % 100 ≠ 0 || y % 400 = 0)

/-- Days in a month, as validated by Go `time.Parse`. -/
def daysInMonth (y m : Nat) : Nat :=
  if m = 2 then (if isLeapYear y then 29 else 28)
  else if m = 4 || m = 6 || m = 9 || m = 11 then 30
  else 31

/-- Model of `time.Parse("20060102150405", s)` succeeding: exactly fourteen
digits whose fields are a valid calendar date and clock time. -/
def validTimestamp (s : Str) : Bool :=
  (s.length == 14) && s.all isDigit &&
    (let y := toNum (s.take 4)
     let mo := toNum ((s.drop 4).take 2)
     let d := toNum ((s.drop 6).take 2)
     let h := toNum ((s.drop 8).take 2)
     let mi := toNum ((s.drop 10).take 2)
     let sec := toNum ((s.drop 12).take 2)
     decide (1 ≤ mo ∧ mo ≤ 12 ∧ 1 ≤ d ∧ d ≤ daysInMonth y mo ∧
             h ≤ 23 ∧ mi ≤ 59 ∧ sec ≤ 59))

/-- Canonical replay URL built by the worker for a resolved pair. -/
def canonicalURL (t o : Str) : Str :=
  "https://web.archive.org/web/".data ++ t ++ '/' :: o

/-- Does the pattern occur as a contiguous substring?  Models
`strings.Contains`. -/
def hasSub (pat : Str) : Str → Bool
  | [] => pat.isEmpty
  | c :: r => pat.isPrefixOf (c :: r) || hasSub pat r

/-- Model of the HTML-error-page test on the response body. -/
def containsHtml (body : Str) : Bool := hasSub "<html>".data body

/-- Record produced by one response line: skip empty lines, lines with fewer
than two fields, and lines whose first field fails the timestamp parse;
otherwise produce the canonical replay URL. -/
def lineRecord (l : Str) : Option Str :=
  if l.isEmpty then none
  else
    match fields l with
    | t :: o :: _ => if validTimestamp t then some (canonicalURL t o) else none
    | _ => none

/-- The per-line loop of the worker over the split body. -/
def processLines : List Str → List Str
  | [] => []
  | l :: rest =>
    match lineRecord l with
    | some u => u :: processLines rest
    | none => processLines rest

/-- Snapshot records resolved from one 200 response body, including the
emptiness, HTML and more-than-one-line gates of the worker. -/
def bodyRecords (body : Str) : List Str :=
  if body.isEmpty || containsHtml body then []
  else if 1 < (splitLines body).length then processLines (splitLines body)
  else []

/-- The per-URL count appended to the summary table, when a row is appended
at all: the number of newline-split pieces of the body minus one. -/
def summaryCount (body : Str) : Option Nat :=
  if body.isEmpty || containsHtml body then none
  else if 1 < (splitLines body).length then some ((splitLines body).length - 1)
  else none

/-- Outcome of the per-URL snapshot query as seen by the worker. -/
inductive SnapResp where
  | reqErr : SnapResp
  | transportErr : SnapResp
  | readErr : SnapResp
  | status : Nat → Str → SnapResp
deriving DecidableEq

/-- Records resolved for one queued URL: empty URLs, failed requests and
non-200 statuses resolve nothing. -/
def respRecords (url : Str) (r : SnapResp) : List Str :=
  if url.isEmpty then []
  else
    match r with
    | .status code body => if code = 429 then [] else if code = 200 then bodyRecords body else []
    | _ => []

/-- Observable side effects of the worker loop body.  The boolean on the
append operations records whether the operation is performed while holding
the shared mutex. -/
inductive SnapOp where
  | sleep : Nat → SnapOp
  | fileApp : Str → Bool → SnapOp
  | sumApp : Str → Nat → Bool → SnapOp
deriving DecidableEq

/-- Trace of side effects of the worker loop body for one queued URL,
translated from the source: the 429 branch sleeps ten seconds and drops the
URL; the report-file appends (block header, one line per record, or the
no-snapshots line) happen without the mutex; only the summary append takes
the mutex.  The human-readable timestamp prefix of a record line is
abstracted to the record's canonical URL. -/
def processURLOps (url : Str) (r : SnapResp) : List SnapOp :=
  if url.isEmpty then []
  else
    match r with
    | .reqErr => []
    | .transportErr => []
    | .readErr => []
    | .status code body =>
      if code = 429 then [SnapOp.sleep 10]
      else if code = 200 then
        if body.isEmpty || containsHtml body then []
        else if 1 < (splitLines body).length then
          SnapOp.fileApp ("Snapshots for URL: ".data ++ url ++ ['\n']) false
            :: ((processLines (splitLines body)).map
                  (fun u => SnapOp.fileApp (u ++ ['\n']) false)
              ++ [SnapOp.sumApp url ((splitLines body).length - 1) true])
        else [SnapOp.fileApp ("No snapshots found for URL: ".data ++ url ++ "\n\n".data) false]
      else []

/-- Records resolved over a whole queue of URLs with their responses. -/
def queueRecords : List (Str × SnapResp) → List Str
  | [] => []
  | (u, r) :: rest => respRecords u r ++ queueRecords rest

/-- Side-effect trace over a whole queue. -/
def queueOps : List (Str × SnapResp) → List SnapOp
  | [] => []
  | (u, r) :: rest => processURLOps u r ++ queueOps rest

/-- File append performed while not holding the mutex. -/
def isUnlockedFileApp : SnapOp → Bool
  | .fileApp _ locked => !locked
  | _ => false

/-- Every summary append must hold the mutex; other operations are
unconstrained by this test. -/
def sumAppLocked : SnapOp → Bool
  | .sumApp _ _ locked => locked
  | _ => true

/-! ## Archive fetcher and run skeleton (`network.go`, `main.go`)

`fetchURLsConcurrently` issues one GET; a transport error or a body-read
error yields an error, otherwise the body is scanned line by line, empty
lines are dropped, and the worker chunking recombines the non-empty lines in
order (an identity on the list).  The HTTP status code of the response is
never inspected.  `runGhostHunter` probes connectivity, creates the output
directory, fetches, filters and saves; the directory is created before the
fetch is issued.
-/

/-- Outcome of the index GET request. -/
inductive FetchOutcome where
  | transportErr : FetchOutcome
  | readErr : FetchOutcome
  | ok : Nat → Str → FetchOutcome
deriving DecidableEq

/-- Drop one trailing carriage return, as `bufio.ScanLines` does. -/
def stripCR (l : Str) : Str :=
  match l.getLast? with
  | some c => if c = '\r' then l.dropLast else l
  | none => l

/-- Model of scanning a body with `bufio.Scanner` and `ScanLines`: the body
is split on newlines, a final empty piece after a trailing newline is not a
token, and each token loses one trailing carriage return. -/
def scanLines (body : Str) : List Str :=
  if body.isEmpty then []
  else
    (if (splitLines body).getLast? = some [] then (splitLines body).dropLast
     else splitLines body).map stripCR

/-- Model of `fetchURLsConcurrently` (network.go): errors on transport or
read failure; on any response, regardless of status code, returns the
non-empty scanned lines in order. -/
def fetchURLsConcurrently : FetchOutcome → Option (List Str)
  | .transportErr => none
  | .readErr => none
  | .ok _ body => some ((scanLines body).filter (fun l => !l.isEmpty))

/-- Environment of one run: results of the connectivity probes, of the
directory creation, and of the fetch. -/
structure RunEnv where
  internet : Bool
  wayback : Bool
  domainUp : Bool
  mkdirOk : Bool
  fetch : FetchOutcome
deriving DecidableEq

/-- Abort causes of `runGhostHunter`. -/
inductive RunError where
  | noInternet : RunError
  | waybackDown : RunError
  | domainUnreachable : RunError
  | mkdirFailed : RunError
  | fetchFailed : RunError
deriving DecidableEq

/-- Observable final state of one run: whether the output directory was
created and which per-extension group files were written. -/
structure RunState where
  dirCreated : Bool
  groupFiles : List (Str × Str)
deriving DecidableEq

/-- Model of `runGhostHunter` (main.go): probes, directory creation, fetch,
filter, save, in source order.  The directory is created before the fetch;
a fetch error aborts before any group file is written. -/
def runGhostHunter (env : RunEnv) (exts : List Str) (domain : Str) :
    Option RunError × RunState :=
  if !env.internet then (some .noInternet, ⟨false, []⟩)
  else if !env.wayback then (some .waybackDown, ⟨false, []⟩)
  else if !env.domainUp then (some .domainUnreachable, ⟨false, []⟩)
  else if !env.mkdirOk then (some .mkdirFailed, ⟨false, []⟩)
  else
    match fetchURLsConcurrently env.fetch with
    | none => (some .fetchFailed, ⟨true, []⟩)
    | some urls =>
      (none, ⟨true, writeOps (filterURLs (joinLines urls) exts) domain⟩)

/-! ## Concrete inputs used by counterexamples and failing-input theorems -/

/-- Fetch environment in which every probe succeeds and the index query
returns HTTP 500 with a URL in the body. -/
def c1env : RunEnv :=
  ⟨true, true, true, true, .ok 500 "http://a.com/x.pdf\n".data⟩

/-- Snapshot body whose first line has a malformed timestamp and whose
second line is valid. -/
def c3body : Str := "202501 http://x\n20250101000000 http://y\n".data

/-- Queried URL for the concurrency failing input. -/
def c4url : Str := "http://x/a.pdf".data

/-- Parsed 200 response for the concurrency failing input. -/
def c4resp : SnapResp := .status 200 "20250101000000 http://x/a.pdf\n".data

/-- Snapshot body with a valid pair but no newline: the split yields a
single piece. -/
def c6body : Str := "20250101000000 http://x/a.pdf".data

/-! ## Properties of line splitting and joining -/

theorem splitAux_no_nl (s : Str) :
    '\n' ∉ (splitAux s).1 ∧ ∀ l ∈ (splitAux s).2, '\n' ∉ l := by
  induction s with
  | nil => constructor <;> simp [splitAux]
  | cons c r ih =>
    rcases ih with ⟨ih1, ih2⟩
    by_cases hc : c = '\n'
    · refine ⟨by simp [splitAux, hc], ?_⟩
      intro l hl
      simp [splitAux, hc] at hl
      rcases hl with h | h
      · exact h ▸ ih1
      · exact ih2 l h
    · refine ⟨?_, ?_⟩
      · intro hmem
        simp [splitAux, hc] at hmem
        rcases hmem with h | h
        · exact hc h.symm
        · exact ih1 h
      · intro l hl
        simp [splitAux, hc] at hl
        exact ih2 l hl

theorem mem_splitLines_no_nl {s x : Str} (hx : x ∈ splitLines s) : '\n' ∉ x := by
  simp only [splitLines, List.mem_cons] at hx
  rcases hx with h | h
  · exact h ▸ (splitAux_no_nl s).1
  · exact (splitAux_no_nl s).2 x h

theorem splitAux_append {l : Str} (t : Str) (h : '\n' ∉ l) :
    splitAux (l ++ t) = (l ++ (splitAux t).1, (splitAux t).2) := by
  induction l with
  | nil => simp
  | cons c l' ih =>
    have hc : c ≠ '\n' := fun e => h (e ▸ List.mem_cons_self c l')
    have h' : '\n' ∉ l' := fun hm => h (List.mem_cons_of_mem _ hm)
    simp [splitAux, hc, ih h']

theorem splitLines_append_nl {l : Str} (t : Str) (h : '\n' ∉ l) :
    splitLines (l ++ '\n' :: t) = l :: splitLines t := by
  simp [splitLines, splitAux_append _ h, splitAux]

theorem splitLines_no_nl {l : Str} (h : '\n' ∉ l) : splitLines l = [l] := by
  have h2 := splitAux_append (l := l) [] h
  simp [splitAux] at h2
  simp [splitLines, h2]

theorem split_join {ls : List Str} (hne : ls ≠ []) (h : ∀ x ∈ ls, '\n' ∉ x) :
    splitLines (joinLines ls) = ls := by
  induction ls with
  | nil => exact absurd rfl hne
  | cons l ls ih =>
    cases ls with
    | nil =>
      simp only [joinLines]
      exact splitLines_no_nl (h l (by simp))
    | cons l2 ls2 =>
      have h1 : '\n' ∉ l := h l (by simp)
      have h2 : ∀ x ∈ l2 :: ls2, '\n' ∉ x := fun x hx => h x (List.mem_cons_of_mem _ hx)
      have hj : joinLines (l :: l2 :: ls2) = l ++ '\n' :: joinLines (l2 :: ls2) := rfl
      rw [hj, splitLines_append_nl _ h1, ih (by simp) h2]

theorem filter_idem (p : Str → Bool) (l : List Str) :
    (l.filter p).filter p = l.filter p := by
  rw [List.filter_filter]
  simp only [Bool.and_self]

/-- C9: filtering is idempotent — applying the filter with the same
extension set to its own rejoined output returns that output unchanged. -/
theorem C9_filter_idempotent (data : Str) (exts : List Str) :
    filterURLs (joinLines (filterURLs data exts)) exts = filterURLs data exts := by
  by_cases hne : filterURLs data exts = []
  · rw [hne]
    simp [filterURLs, joinLines, splitLines, splitAux]
  · have hnl : ∀ x ∈ filterURLs data exts, '\n' ∉ x := fun x hx =>
      mem_splitLines_no_nl (List.mem_of_mem_filter hx)
    have hsplit := split_join hne hnl
    calc filterURLs (joinLines (filterURLs data exts)) exts
        = (splitLines (joinLines (filterURLs data exts))).filter
            (fun l => !l.isEmpty && reMatch (exts.map denoteTok) l) := rfl
      _ = (filterURLs data exts).filter
            (fun l => !l.isEmpty && reMatch (exts.map denoteTok) l) := by rw [hsplit]
      _ = ((splitLines data).filter
            (fun l => !l.isEmpty && reMatch (exts.map denoteTok) l)).filter
            (fun l => !l.isEmpty && reMatch (exts.map denoteTok) l) := rfl
      _ = (splitLines data).filter
            (fun l => !l.isEmpty && reMatch (exts.map denoteTok) l) := filter_idem _ _
      _ = filterURLs data exts := rfl

/-- C1 counterexample: with every probe succeeding and the index query
returning HTTP 500 with a URL body, the fetch does not return an error, the
run does not abort, the output directory is created, and a per-extension
group file is written — refuting the claim that a non-2xx status yields an
error and that the run aborts before any directory or group file exists. -/
theorem C1_counterexample :
    (fetchURLsConcurrently (FetchOutcome.ok 500 "http://a.com/x.pdf\n".data)).isSome = true
    ∧ (runGhostHunter c1env ["pdf".data] "a.com".data).1 = none
    ∧ (runGhostHunter c1env ["pdf".data] "a.com".data).2.dirCreated = true
    ∧ (runGhostHunter c1env ["pdf".data] "a.com".data).2.groupFiles ≠ [] := by
  decide

/-- C1 amended: only a transport-level or body-read failure makes the fetch
return an error, in which case the run aborts with a fetch error and no
group file is written, but the output directory has already been created;
a response with any HTTP status code, 2xx or not, is never detected as an
error. -/
theorem C1_fetch_error_aborts (env : RunEnv) (exts : List Str) (domain : Str)
    (hint : env.internet = true) (hwb : env.wayback = true)
    (hdom : env.domainUp = true) (hmk : env.mkdirOk = true)
    (hf : env.fetch = .transportErr ∨ env.fetch = .readErr) :
    fetchURLsConcurrently env.fetch = none
    ∧ runGhostHunter env exts domain = (some .fetchFailed, ⟨true, []⟩)
    ∧ ∀ (code : Nat) (body : Str),
        (fetchURLsConcurrently (FetchOutcome.ok code body)).isSome = true := by
  have hfn : fetchURLsConcurrently env.fetch = none := by
    rcases hf with h | h <;> rw [h] <;> rfl
  refine ⟨hfn, ?_, fun _ _ => rfl⟩
  simp [runGhostHunter, hint, hwb, hdom, hmk, hfn]

theorem C1_fetch_error_aborts_witness :
    (RunEnv.mk true true true true .transportErr).internet = true
    ∧ (fetchURLsConcurrently (RunEnv.mk true true true true .transportErr).fetch = none
       ∧ runGhostHunter (RunEnv.mk true true true true .transportErr) [] []
           = (some .fetchFailed, ⟨true, []⟩)
       ∧ ∀ (code : Nat) (body : Str),
           (fetchURLsConcurrently (FetchOutcome.ok code body)).isSome = true) :=
  ⟨rfl, C1_fetch_error_aborts _ [] [] rfl rfl rfl rfl (Or.inl rfl)⟩

/-- C3 failing input: for the body whose first line has the malformed
timestamp 202501 and whose second line is valid, the summary row records
the raw split length minus one (2), while only one snapshot record is
resolved — the recorded count is not the number of resolved records. -/
theorem C3_summary_count_mismatch :
    summaryCount c3body = some 2
    ∧ (bodyRecords c3body).length = 1
    ∧ summaryCount c3body ≠ some ((bodyRecords c3body).length) := by
  decide

/-- C4 failing input: in the worker trace for a URL with a parsed 200
response, some report-file append is performed while not holding the mutex,
whereas every summary-table append in any trace does hold it — the file
appends of concurrent workers are not serialized. -/
theorem C4_file_appends_unlocked :
    (processURLOps c4url c4resp).any isUnlockedFileApp = true
    ∧ ∀ (url : Str) (r : SnapResp),
        (processURLOps url r).all sumAppLocked = true := by
  refine ⟨by decide, ?_⟩
  intro url r
  unfold processURLOps
  repeat' split
  all_goals simp [sumAppLocked, List.all_append, List.all_map, Function.comp]

/-- C5: an HTTP 429 snapshot response for a queued URL makes the worker
sleep ten seconds and drop the URL — no record is resolved for it — while
the records resolved for the remaining queued URLs are unchanged. -/
theorem C5_rate_limited_drops (x body : Str) (rest : List (Str × SnapResp))
    (hx : x.isEmpty = false) :
    respRecords x (.status 429 body) = []
    ∧ processURLOps x (.status 429 body) = [SnapOp.sleep 10]
    ∧ queueRecords ((x, .status 429 body) :: rest) = queueRecords rest
    ∧ queueOps ((x, .status 429 body) :: rest) = SnapOp.sleep 10 :: queueOps rest := by
  have h1 : respRecords x (.status 429 body) = [] := by
    unfold respRecords
    simp [hx]
  have h2 : processURLOps x (.status 429 body) = [SnapOp.sleep 10] := by
    unfold processURLOps
    simp [hx]
  refine ⟨h1, h2, ?_, ?_⟩
  · show respRecords x (.status 429 body) ++ queueRecords rest = queueRecords rest
    rw [h1, List.nil_append]
  · show processURLOps x (.status 429 body) ++ queueOps rest = SnapOp.sleep 10 :: queueOps rest
    rw [h2, List.singleton_append]

theorem C5_rate_limited_drops_witness :
    ("http://x/a.pdf".data.isEmpty = false)
    ∧ (respRecords "http://x/a.pdf".data (.status 429 []) = []
       ∧ processURLOps "http://x/a.pdf".data (.status 429 []) = [SnapOp.sleep 10]
       ∧ queueRecords (("http://x/a.pdf".data, .status 429 []) :: []) = queueRecords []
       ∧ queueOps (("http://x/a.pdf".data, .status 429 []) :: [])
           = SnapOp.sleep 10 :: queueOps []) :=
  ⟨rfl, C5_rate_limited_drops _ _ _ rfl⟩

/-- C6 counterexample: a body holding one valid timestamp-URL pair but no
newline is parsed into a single piece, and the worker resolves no record
from it — so a valid pair does not always yield a snapshot record. -/
theorem C6_counterexample :
    (∃ l ∈ splitLines c6body, (lineRecord l).isSome = true)
    ∧ bodyRecords c6body = [] := by
  decide

/-- C6 amended: for a non-empty, non-HTML body whose newline split yields
more than one piece, the records are exactly those of the per-line loop; in
that loop a line whose first field fails the 14-digit timestamp parse is
skipped without affecting the remaining lines, and a non-empty line whose
first two whitespace fields are a valid timestamp and a URL contributes the
canonical record archive-base/web/timestamp/originalURL; a body without a
newline yields no records even when it holds a valid pair. -/
theorem C6_parse_loop (body lb lg t1 o1 t2 o2 : Str) (r1 r2 : List Str) (ls : List Str)
    (hb : body.isEmpty = false) (hh : containsHtml body = false)
    (hlen : 1 < (splitLines body).length)
    (hf1 : fields lb = t1 :: o1 :: r1) (hv1 : validTimestamp t1 = false)
    (he2 : lg.isEmpty = false) (hf2 : fields lg = t2 :: o2 :: r2)
    (hv2 : validTimestamp t2 = true) :
    bodyRecords body = processLines (splitLines body)
    ∧ processLines (lb :: ls) = processLines ls
    ∧ processLines (lg :: ls)
        = ("https://web.archive.org/web/".data ++ t2 ++ '/' :: o2) :: processLines ls := by
  refine ⟨?_, ?_, ?_⟩
  · unfold bodyRecords
    rw [hb, hh]
    simp [hlen]
  · have hlr : lineRecord lb = none := by
      simp [lineRecord, hf1, hv1]
    simp [processLines, hlr]
  · have hlr : lineRecord lg = some (canonicalURL t2 o2) := by
      simp [lineRecord, he2, hf2, hv2]
    simp [processLines, hlr]
    rfl

theorem C6_parse_loop_witness :
    (c3body.isEmpty = false ∧ containsHtml c3body = false
      ∧ 1 < (splitLines c3body).length
      ∧ fields "202501 http://x".data = "202501".data :: "http://x".data :: []
      ∧ validTimestamp "202501".data = false
      ∧ "20250101000000 http://y".data.isEmpty = false
      ∧ fields "20250101000000 http://y".data
          = "20250101000000".data :: "http://y".data :: []
      ∧ validTimestamp "20250101000000".data = true)
    ∧ (bodyRecords c3body = processLines (splitLines c3body)
       ∧ processLines ("202501 http://x".data :: []) = processLines []
       ∧ processLines ("20250101000000 http://y".data :: [])
           = ("https://web.archive.org/web/".data ++ "20250101000000".data
               ++ '/' :: "http://y".data) :: processLines []) :=
  ⟨by decide,
   C6_parse_loop c3body "202501 http://x".data "20250101000000 http://y".data
     "202501".data "http://x".data "20250101000000".data "http://y".data [] [] []
     (by decide) (by decide) (by decide) (by decide) (by decide)
     (by decide) (by decide) (by decide)⟩

/-! ## The filter pattern behaves as specified -/

theorem prefixOf_iff (e : Str) : ∀ r : Str, e.isPrefixOf r = true ↔ ∃ t, r = e ++ t := by
  induction e with
  | nil => intro r; simp [List.isPrefixOf]
  | cons a e' ih =>
    intro r
    cases r with
    | nil =>
      constructor
      · intro h; exact absurd h (by simp [List.isPrefixOf])
      · rintro ⟨t, ht⟩; exact absurd ht (by simp)
    | cons b r' =>
      have hunf : (a :: e').isPrefixOf (b :: r') = ((a == b) && e'.isPrefixOf r') := rfl
      rw [hunf, Bool.and_eq_true, beq_iff_eq, ih]
      constructor
      · rintro ⟨hab, t, hrt⟩
        subst hab
        subst hrt
        exact ⟨t, rfl⟩
      · rintro ⟨t, ht⟩
        rw [List.cons_append] at ht
        obtain ⟨h1, h2⟩ := List.cons.inj ht
        exact ⟨h1.symm, t, h2⟩

theorem suffixOk_iff (s : Str) : suffixOk s = true ↔ QuerySuffix s := by
  cases s with
  | nil => simp [suffixOk, QuerySuffix]
  | cons c r =>
    simp only [suffixOk, QuerySuffix, decide_eq_true_eq]
    constructor
    · intro h; exact Or.inr ⟨r, by rw [h]⟩
    · rintro (h | ⟨rest, h⟩)
      · exact absurd h (by simp)
      · exact (List.cons.inj h).1

theorem matchHere_iff (lits : List Str) (r : Str) :
    matchHere lits r = true ↔ ∃ e ∈ lits, ∃ suf, r = e ++ suf ∧ QuerySuffix suf := by
  unfold matchHere
  rw [List.any_eq_true]
  constructor
  · rintro ⟨e, he, hcond⟩
    rw [Bool.and_eq_true] at hcond
    obtain ⟨hpre, hsuf⟩ := hcond
    obtain ⟨t, rfl⟩ := (prefixOf_iff e r).mp hpre
    rw [List.drop_left] at hsuf
    exact ⟨e, he, t, rfl, (suffixOk_iff t).mp hsuf⟩
  · rintro ⟨e, he, suf, rfl, hqs⟩
    refine ⟨e, he, ?_⟩
    rw [Bool.and_eq_true]
    refine ⟨(prefixOf_iff e _).mpr ⟨suf, rfl⟩, ?_⟩
    rw [List.drop_left]
    exact (suffixOk_iff suf).mpr hqs

theorem reMatch_iff (lits : List Str) (l : Str) :
    reMatch lits l = true
      ↔ ∃ pre e suf, e ∈ lits ∧ l = pre ++ '.' :: (e ++ suf) ∧ QuerySuffix suf := by
  induction l with
  | nil =>
    constructor
    · intro h; exact absurd h (by simp [reMatch])
    · rintro ⟨pre, e, suf, _, h, _⟩
      simp at h
  | cons c l ih =>
    have hunf : reMatch lits (c :: l)
        = (((c == '.') && matchHere lits l) || reMatch lits l) := rfl
    rw [hunf, Bool.or_eq_true, Bool.and_eq_true, beq_iff_eq, matchHere_iff, ih]
    constructor
    · rintro (⟨rfl, e, he, suf, rfl, hqs⟩ | ⟨pre, e, suf, he, heq, hqs⟩)
      · exact ⟨[], e, suf, he, rfl, hqs⟩
      · exact ⟨c :: pre, e, suf, he, by rw [heq, List.cons_append], hqs⟩
    · rintro ⟨pre, e, suf, he, heq, hqs⟩
      cases pre with
      | nil =>
        rw [List.nil_append] at heq
        obtain ⟨h1, h2⟩ := List.cons.inj heq
        exact Or.inl ⟨h1, e, he, suf, h2, hqs⟩
      | cons p pre' =>
        rw [List.cons_append] at heq
        obtain ⟨h1, h2⟩ := List.cons.inj heq
        exact Or.inr ⟨pre', e, suf, he, h2, hqs⟩

/-- C7: for a non-empty extension list of alphanumeric or dot-escaped
tokens, the filter returns exactly the non-empty input lines on which the
compiled pattern matches, and that pattern holds on a line exactly when the
line decomposes as some prefix, a literal dot, the literal denoted by one of
the configured tokens, and an optional query suffix reaching the end of the
line; empty lines are rejected before matching by the conjunction's
short-circuit, and the embedding is a pure function of its arguments. -/
theorem C7_filter_regex_spec (data : Str) (exts : List Str)
    (hne : exts ≠ []) (hwf : ∀ t ∈ exts, wfTok t = true) :
    filterURLs data exts
      = (splitLines data).filter (fun l => !l.isEmpty && reMatch (exts.map denoteTok) l)
    ∧ ∀ l : Str, (!l.isEmpty && reMatch (exts.map denoteTok) l) = true
        ↔ (l ≠ [] ∧ MatchesSpec exts l) := by
  refine ⟨rfl, ?_⟩
  intro l
  rw [Bool.and_eq_true, reMatch_iff]
  constructor
  · rintro ⟨hne', pre, e, suf, hmem, heq, hqs⟩
    obtain ⟨e0, he0, rfl⟩ := List.mem_map.mp hmem
    refine ⟨?_, pre, e0, suf, he0, heq, hqs⟩
    intro h
    rw [h] at hne'
    simp at hne'
  · rintro ⟨hl, pre, e0, suf, he0, heq, hqs⟩
    refine ⟨?_, pre, denoteTok e0, suf, List.mem_map.mpr ⟨e0, he0, rfl⟩, heq, hqs⟩
    cases l with
    | nil => exact absurd rfl hl
    | cons a l' => rfl

theorem C7_filter_regex_spec_witness :
    ((["pdf".data] : List Str) ≠ [] ∧ ∀ t ∈ [("pdf".data : Str)], wfTok t = true)
    ∧ (filterURLs "http://a.com/x.pdf\n\nhttp://a.com/y.exe\nhttp://a.com/z.pdf?v=2".data
         ["pdf".data]
         = (splitLines "http://a.com/x.pdf\n\nhttp://a.com/y.exe\nhttp://a.com/z.pdf?v=2".data).filter
             (fun l => !l.isEmpty && reMatch ([("pdf".data : Str)].map denoteTok) l)
       ∧ ∀ l : Str, (!l.isEmpty && reMatch ([("pdf".data : Str)].map denoteTok) l) = true
           ↔ (l ≠ [] ∧ MatchesSpec ["pdf".data] l)) :=
  ⟨⟨by decide, by decide⟩,
   C7_filter_regex_spec "http://a.com/x.pdf\n\nhttp://a.com/y.exe\nhttp://a.com/z.pdf?v=2".data
     ["pdf".data] (by decide) (by decide)⟩

/-- Scenario 1 of the specification, checked on the embedding: the two pdf
lines survive the filter, the empty line and the exe line do not. -/
theorem scenario1_filter :
    filterURLs "http://a.com/x.pdf\n\nhttp://a.com/y.exe\nhttp://a.com/z.pdf?v=2".data
      ["pdf".data]
      = ["http://a.com/x.pdf".data, "http://a.com/z.pdf?v=2".data] := by
  decide

/-! ## The extraction pattern behaves as specified -/

theorem mem_takeWhile_pred (p : Char → Bool) :
    ∀ (l : Str) (x : Char), x ∈ l.takeWhile p → p x = true := by
  intro l
  induction l with
  | nil => intro x hx; simp [List.takeWhile] at hx
  | cons a l ih =>
    intro x hx
    by_cases hp : p a = true
    · rw [List.takeWhile_cons_of_pos hp] at hx
      rcases List.mem_cons.mp hx with h | h
      · exact h ▸ hp
      · exact ih x h
    · rw [List.takeWhile_cons_of_neg hp] at hx
      simp at hx

theorem takeWhile_append_of_all :
    ∀ (e t : Str), (∀ c ∈ e, isAlnum c = true) →
      ∃ m, (e ++ t).takeWhile isAlnum = e ++ m := by
  intro e
  induction e with
  | nil => intro t _; exact ⟨t.takeWhile isAlnum, by simp⟩
  | cons a e' ih =>
    intro t he
    have ha : isAlnum a = true := he a (List.mem_cons_self a e')
    obtain ⟨m, hm⟩ := ih t (fun c hc => he c (List.mem_cons_of_mem _ hc))
    refine ⟨m, ?_⟩
    rw [List.cons_append, List.takeWhile_cons_of_pos ha, hm, List.cons_append]

theorem extractExt_cons (c : Char) (r : Str) :
    extractExt (c :: r)
      = if c = '.' then
          (if (!(r.takeWhile isAlnum).isEmpty && suffixOk (r.dropWhile isAlnum)) = true then
            some (r.takeWhile isAlnum)
          else extractExt r)
        else extractExt r := rfl

theorem extract_isSome_iff : ∀ l : Str, (extractExt l).isSome = true ↔ HasExt l := by
  intro l
  induction l with
  | nil =>
    constructor
    · intro h; simp [extractExt] at h
    · rintro ⟨pre, e, suf, heq, _, _, _⟩
      simp at heq
  | cons c r ih =>
    by_cases hc : c = '.'
    · subst hc
      by_cases hcond : (!(r.takeWhile isAlnum).isEmpty && suffixOk (r.dropWhile isAlnum)) = true
      · have hx : extractExt ('.' :: r) = some (r.takeWhile isAlnum) := by
          rw [extractExt_cons, if_pos rfl, if_pos hcond]
        rw [Bool.and_eq_true, Bool.not_eq_true'] at hcond
        obtain ⟨hne, hqs⟩ := hcond
        rw [hx]
        constructor
        · intro _
          refine ⟨[], r.takeWhile isAlnum, r.dropWhile isAlnum, ?_, ?_, ?_, ?_⟩
          · rw [List.nil_append, List.takeWhile_append_dropWhile]
          · intro h
            rw [h] at hne
            simp at hne
          · exact fun x hx2 => mem_takeWhile_pred isAlnum r x hx2
          · exact (suffixOk_iff _).mp hqs
        · intro _; rfl
      · have hx : extractExt ('.' :: r) = extractExt r := by
          rw [extractExt_cons, if_pos rfl, if_neg hcond]
        rw [hx, ih]
        constructor
        · rintro ⟨pre, e, suf, heq, hne, hal, hqs⟩
          exact ⟨'.' :: pre, e, suf, by rw [heq, List.cons_append], hne, hal, hqs⟩
        · rintro ⟨pre, e, suf, heq, hne, hal, hqs⟩
          cases pre with
          | cons p pre' =>
            rw [List.cons_append] at heq
            exact ⟨pre', e, suf, (List.cons.inj heq).2, hne, hal, hqs⟩
          | nil =>
            exfalso
            rw [List.nil_append] at heq
            obtain ⟨_, h2⟩ := List.cons.inj heq
            obtain ⟨m, hm⟩ := takeWhile_append_of_all e suf hal
            rw [← h2] at hm
            apply hcond
            rw [Bool.and_eq_true, Bool.not_eq_true']
            constructor
            · rw [hm]
              cases e with
              | nil => exact absurd rfl hne
              | cons a e' => rfl
            · have hsplit : r = (e ++ m) ++ r.dropWhile isAlnum := by
                rw [← hm, List.takeWhile_append_dropWhile]
              have hmid : e ++ suf = e ++ (m ++ r.dropWhile isAlnum) := by
                calc e ++ suf = r := h2.symm
                  _ = (e ++ m) ++ r.dropWhile isAlnum := hsplit
                  _ = e ++ (m ++ r.dropWhile isAlnum) := List.append_assoc e m _
              have hsuf : suf = m ++ r.dropWhile isAlnum := List.append_cancel_left hmid
              cases m with
              | nil =>
                have h4 : suffixOk suf = true := (suffixOk_iff suf).mpr hqs
                rw [List.nil_append] at hsuf
                rw [← hsuf]
                exact h4
              | cons x m' =>
                exfalso
                have hx2 : isAlnum x = true := by
                  apply mem_takeWhile_pred isAlnum r
                  rw [hm]
                  simp
                rw [List.cons_append] at hsuf
                rcases hqs with h | ⟨rest, h⟩
                · rw [h] at hsuf
                  exact (List.cons_ne_nil _ _) hsuf.symm
                · rw [h] at hsuf
                  obtain ⟨hx3, _⟩ := List.cons.inj hsuf
                  rw [← hx3] at hx2
                  exact absurd hx2 (by decide)
    · have hx : extractExt (c :: r) = extractExt r := by
        rw [extractExt_cons, if_neg hc]
      rw [hx, ih]
      constructor
      · rintro ⟨pre, e, suf, heq, hne, hal, hqs⟩
        exact ⟨c :: pre, e, suf, by rw [heq, List.cons_append], hne, hal, hqs⟩
      · rintro ⟨pre, e, suf, heq, hne, hal, hqs⟩
        cases pre with
        | nil =>
          rw [List.nil_append] at heq
          exact absurd (List.cons.inj heq).1 hc
        | cons p pre' =>
          rw [List.cons_append] at heq
          exact ⟨pre', e, suf, (List.cons.inj heq).2, hne, hal, hqs⟩

/-! ## Grouping and counting -/

theorem lookupGroup_cons (k x : Str) (g : List Str) (rest : List (Str × List Str)) :
    lookupGroup ((k, g) :: rest) x = if k = x then g else lookupGroup rest x := rfl

theorem insertGroup_cons (k e u : Str) (g : List Str) (rest : List (Str × List Str)) :
    insertGroup ((k, g) :: rest) e u
      = if k = e then (k, g ++ [u]) :: rest else (k, g) :: insertGroup rest e u := rfl

theorem lookup_insert (e u x : Str) :
    ∀ m : List (Str × List Str),
      lookupGroup (insertGroup m e u) x
        = lookupGroup m x ++ (if x = e then [u] else []) := by
  intro m
  induction m with
  | nil =>
    show lookupGroup [(e, [u])] x = [] ++ (if x = e then [u] else [])
    rw [lookupGroup_cons, List.nil_append]
    by_cases hx : x = e
    · rw [if_pos hx.symm, if_pos hx]
    · rw [if_neg (fun h => hx h.symm), if_neg hx]
      rfl
  | cons kg rest ih =>
    obtain ⟨k, g⟩ := kg
    rw [insertGroup_cons]
    by_cases hk : k = e
    · rw [if_pos hk, lookupGroup_cons, lookupGroup_cons]
      by_cases hkx : k = x
      · have hxe : x = e := by rw [← hkx]; exact hk
        rw [if_pos hkx, if_pos hkx, if_pos hxe]
      · have hxe : ¬ x = e := by
          intro h
          apply hkx
          rw [hk, ← h]
        rw [if_neg hkx, if_neg hkx, if_neg hxe, List.append_nil]
    · rw [if_neg hk, lookupGroup_cons, lookupGroup_cons]
      by_cases hkx : k = x
      · have hxe : ¬ x = e := by
          intro h
          apply hk
          rw [hkx, h]
        rw [if_pos hkx, if_pos hkx, if_neg hxe, List.append_nil]
      · rw [if_neg hkx, if_neg hkx, ih]

theorem lookup_foldl (x : Str) :
    ∀ (urls : List Str) (m : List (Str × List Str)),
      lookupGroup (urls.foldl groupStep m) x
        = lookupGroup m x ++ urls.filter (fun u => decide (extractExt u = some x)) := by
  intro urls
  induction urls with
  | nil => intro m; simp
  | cons u us ih =>
    intro m
    rw [List.foldl_cons, ih]
    rcases hx : extractExt u with _ | e
    · have hstep : groupStep m u = m := by simp [groupStep, hx]
      have hpred : (decide (extractExt u = some x)) = false := by simp [hx]
      rw [hstep]
      simp [List.filter_cons, hpred]
    · have hstep : groupStep m u = insertGroup m e u := by simp [groupStep, hx]
      rw [hstep, lookup_insert]
      by_cases hex : x = e
      · subst hex
        have hpred : (decide (extractExt u = some x)) = true := by simp [hx]
        simp [List.filter_cons, hpred, List.append_assoc]
      · have hpred : (decide (extractExt u = some x)) = false := by
          simp [hx]
          intro h
          exact absurd h.symm hex
        simp [List.filter_cons, hpred, hex]

theorem group_eq_filter (urls : List Str) (x : Str) :
    lookupGroup (groupByExt urls) x
      = urls.filter (fun u => decide (extractExt u = some x)) := by
  have h := lookup_foldl x urls []
  simpa [groupByExt] using h

theorem sumGroupCounts_insert (e u : Str) :
    ∀ m : List (Str × List Str),
      sumGroupCounts (insertGroup m e u) = sumGroupCounts m + 1 := by
  intro m
  induction m with
  | nil => simp [sumGroupCounts, insertGroup]
  | cons kg rest ih =>
    obtain ⟨k, g⟩ := kg
    rw [insertGroup_cons]
    by_cases hk : k = e
    · rw [if_pos hk]
      simp [sumGroupCounts]
      omega
    · rw [if_neg hk]
      simp [sumGroupCounts] at ih ⊢
      omega

theorem sumGroupCounts_foldl :
    ∀ (urls : List Str) (m : List (Str × List Str)),
      sumGroupCounts (urls.foldl groupStep m)
        = sumGroupCounts m + countExtractable urls := by
  intro urls
  induction urls with
  | nil => intro m; simp [countExtractable]
  | cons u us ih =>
    intro m
    rw [List.foldl_cons, ih]
    rcases hx : extractExt u with _ | e
    · have hstep : groupStep m u = m := by simp [groupStep, hx]
      have hcount : countExtractable (u :: us) = countExtractable us := by
        simp [countExtractable, List.filter_cons, hx]
      rw [hstep, hcount]
    · have hstep : groupStep m u = insertGroup m e u := by simp [groupStep, hx]
      have hcount : countExtractable (u :: us) = countExtractable us + 1 := by
        simp [countExtractable, List.filter_cons, hx]
      rw [hstep, sumGroupCounts_insert, hcount]
      omega

theorem grandTotal_eq_sum : ∀ (order : List (Str × List Str)) (init : Nat),
    order.foldl (fun t g => t + g.2.length) init = init + sumGroupCounts order := by
  intro order
  induction order with
  | nil => intro init; simp [sumGroupCounts]
  | cons g gs ih =>
    intro init
    rw [List.foldl_cons, ih]
    simp [sumGroupCounts]
    omega

/-- C2: the grand total accumulated by the group goroutines equals the sum
of the per-group counts, which equals the number of filtered URLs with an
extractable trailing extension, for every completion order of the
goroutines — each addition to the shared counter is performed under the
mutex, so the counter is a fold of atomic additions over some permutation
of the groups. -/
theorem C2_total_counts_exact (urls : List Str) (order : List (Str × List Str))
    (hperm : order.Perm (groupByExt urls)) :
    grandTotal order = sumGroupCounts order
    ∧ sumGroupCounts order = countExtractable urls := by
  have h1 : grandTotal order = sumGroupCounts order := by
    have h := grandTotal_eq_sum order 0
    simpa [grandTotal] using h
  have hsum : sumGroupCounts order = sumGroupCounts (groupByExt urls) := by
    unfold sumGroupCounts
    exact List.Perm.sum_eq (hperm.map _)
  have h2 : sumGroupCounts (groupByExt urls) = countExtractable urls := by
    have h := sumGroupCounts_foldl urls []
    simpa [groupByExt, sumGroupCounts] using h
  exact ⟨h1, hsum.trans h2⟩

theorem C2_total_counts_exact_witness :
    ((groupByExt ["a.pdf".data, "b.txt".data, "c.pdf".data]).reverse.Perm
        (groupByExt ["a.pdf".data, "b.txt".data, "c.pdf".data]))
    ∧ (grandTotal (groupByExt ["a.pdf".data, "b.txt".data, "c.pdf".data]).reverse
         = sumGroupCounts (groupByExt ["a.pdf".data, "b.txt".data, "c.pdf".data]).reverse
       ∧ sumGroupCounts (groupByExt ["a.pdf".data, "b.txt".data, "c.pdf".data]).reverse
           = countExtractable ["a.pdf".data, "b.txt".data, "c.pdf".data]) :=
  ⟨List.reverse_perm _,
   C2_total_counts_exact ["a.pdf".data, "b.txt".data, "c.pdf".data] _ (List.reverse_perm _)⟩

/-! ## Persistence of the groups under any completion order -/

theorem keysOf_insert (e u : Str) :
    ∀ m : List (Str × List Str),
      keysOf (insertGroup m e u)
        = if e ∈ keysOf m then keysOf m else keysOf m ++ [e] := by
  intro m
  induction m with
  | nil => simp [keysOf, insertGroup]
  | cons kg rest ih =>
    obtain ⟨k, g⟩ := kg
    rw [insertGroup_cons]
    by_cases hk : k = e
    · rw [if_pos hk]
      subst hk
      simp [keysOf]
    · rw [if_neg hk]
      have hcons : keysOf ((k, g) :: insertGroup rest e u)
          = k :: keysOf (insertGroup rest e u) := rfl
      rw [hcons, ih]
      by_cases hmem : e ∈ keysOf rest
      · rw [if_pos hmem, if_pos (show e ∈ keysOf ((k, g) :: rest) from
          List.mem_cons_of_mem _ hmem)]
        rfl
      · rw [if_neg hmem, if_neg (show e ∉ keysOf ((k, g) :: rest) from ?_)]
        · rfl
        · intro hc
          rcases List.mem_cons.mp hc with h | h
          · exact hk h.symm
          · exact hmem h

theorem keys_nodup_insert (e u : Str) (m : List (Str × List Str))
    (h : (keysOf m).Nodup) : (keysOf (insertGroup m e u)).Nodup := by
  rw [keysOf_insert]
  by_cases hmem : e ∈ keysOf m
  · rw [if_pos hmem]; exact h
  · rw [if_neg hmem]
    refine List.Nodup.append h (List.nodup_singleton e) ?_
    intro a ha hb
    rw [List.mem_singleton] at hb
    exact hmem (hb ▸ ha)

theorem keys_nodup_groupByExt : ∀ (urls : List Str) (m : List (Str × List Str)),
    (keysOf m).Nodup → (keysOf (urls.foldl groupStep m)).Nodup := by
  intro urls
  induction urls with
  | nil => intro m h; exact h
  | cons u us ih =>
    intro m h
    rw [List.foldl_cons]
    apply ih
    rcases hx : extractExt u with _ | e
    · simpa [groupStep, hx] using h
    · have hstep : groupStep m u = insertGroup m e u := by simp [groupStep, hx]
      rw [hstep]
      exact keys_nodup_insert e u m h

theorem mem_lookup : ∀ (m : List (Str × List Str)) (e : Str) (g : List Str),
    (keysOf m).Nodup → (e, g) ∈ m → lookupGroup m e = g := by
  intro m
  induction m with
  | nil => intro e g _ hmem; simp at hmem
  | cons kg rest ih =>
    intro e g hnd hmem
    obtain ⟨k, g'⟩ := kg
    rw [lookupGroup_cons]
    rcases List.mem_cons.mp hmem with h | h
    · have h1 : e = k := (Prod.ext_iff.mp h).1
      have h2 : g = g' := (Prod.ext_iff.mp h).2
      rw [if_pos h1.symm, ← h2]
    · have hk : ¬ k = e := by
        intro hke
        have hmk : e ∈ keysOf rest := List.mem_map.mpr ⟨(e, g), h, rfl⟩
        have hnd' : (k :: keysOf rest).Nodup := hnd
        exact (List.nodup_cons.mp hnd').1 (hke ▸ hmk)
      rw [if_neg hk]
      have hnd2 : (keysOf rest).Nodup := by
        have hnd' : (k :: keysOf rest).Nodup := hnd
        exact (List.nodup_cons.mp hnd').2
      exact ih e g hnd2 h

theorem lookup_mem : ∀ (m : List (Str × List Str)) (e : Str) (g : List Str),
    lookupGroup m e = g → g ≠ [] → (e, g) ∈ m := by
  intro m
  induction m with
  | nil => intro e g hl hg; exact absurd hl.symm hg
  | cons kg rest ih =>
    intro e g hl hg
    obtain ⟨k, g'⟩ := kg
    rw [lookupGroup_cons] at hl
    by_cases hk : k = e
    · rw [if_pos hk] at hl
      subst hk
      rw [← hl]
      exact List.mem_cons_self _ _
    · rw [if_neg hk] at hl
      exact List.mem_cons_of_mem _ (ih e g hl hg)

theorem fileName_inj {domain e1 e2 : Str} (h : fileName domain e1 = fileName domain e2) :
    e1 = e2 := by
  unfold fileName at h
  have h2 := List.append_cancel_left h
  have h3 := (List.cons.inj h2).2
  exact List.append_cancel_right h3

theorem foldl_applyWrite (f c0 : Str) :
    ∀ (ws : List (Str × Str)) (fs : Str → Option Str),
      (∀ c, (f, c) ∈ ws → c = c0) →
      ((f, c0) ∈ ws ∨ fs f = some c0) →
      ws.foldl applyWrite fs f = some c0 := by
  intro ws
  induction ws with
  | nil =>
    intro fs _ hin
    rcases hin with h | h
    · simp at h
    · exact h
  | cons w ws ih =>
    intro fs huniq hin
    rw [List.foldl_cons]
    apply ih
    · intro c hc
      exact huniq c (List.mem_cons_of_mem _ hc)
    · rcases hin with h | h
      · rcases List.mem_cons.mp h with h1 | h1
        · right
          have hw1 : w.1 = f := by rw [← h1]
          have hw2 : w.2 = c0 := by rw [← h1]
          show applyWrite fs w f = some c0
          simp [applyWrite, hw1, hw2]
        · left; exact h1
      · right
        show applyWrite fs w f = some c0
        by_cases hf : f = w.1
        · have hw : (f, w.2) = w := by rw [hf]
          have hc0 : w.2 = c0 := huniq w.2 (hw ▸ List.mem_cons_self w ws)
          simp [applyWrite, hf, hc0]
        · simp [applyWrite, hf, h]

theorem writes_lookup_eq (urls : List Str) (domain e : Str) (g : List Str)
    (perm : List (Str × Str))
    (hl : lookupGroup (groupByExt urls) e = g) (hg : g ≠ [])
    (hperm : perm.Perm (writeOps urls domain)) :
    runWrites perm (fileName domain e) = some (joinLines g) := by
  have hnd : (keysOf (groupByExt urls)).Nodup :=
    keys_nodup_groupByExt urls [] (by simp [keysOf])
  have hmemg : (e, g) ∈ groupByExt urls := lookup_mem _ e g hl hg
  have hmemw : (fileName domain e, joinLines g) ∈ writeOps urls domain :=
    List.mem_map.mpr ⟨(e, g), hmemg, rfl⟩
  have huniq : ∀ c, (fileName domain e, c) ∈ perm → c = joinLines g := by
    intro c hc
    have hcw : (fileName domain e, c) ∈ writeOps urls domain := hperm.mem_iff.mp hc
    obtain ⟨⟨e2, g2⟩, hmem2, heq⟩ := List.mem_map.mp hcw
    have h1 : fileName domain e2 = fileName domain e := (Prod.ext_iff.mp heq).1
    have h2 : joinLines g2 = c := (Prod.ext_iff.mp heq).2
    have he2 : e2 = e := fileName_inj h1
    subst he2
    have hlg2 : lookupGroup (groupByExt urls) e2 = g2 := mem_lookup _ _ _ hnd hmem2
    have hg2 : g2 = g := hlg2.symm.trans hl
    rw [← h2, hg2]
  have hin : (fileName domain e, joinLines g) ∈ perm := hperm.mem_iff.mpr hmemw
  unfold runWrites
  exact foldl_applyWrite _ _ perm (fun _ => none) huniq (Or.inl hin)

/-- C8: the aggregator derives each URL's extension by the loose trailing
pattern — extraction succeeds exactly on URLs that decompose into a prefix,
a dot, a nonempty alphanumeric token and an optional query suffix — URLs
without an extractable extension belong to no group, and under every
completion order of the per-group goroutines each nonempty group is
persisted to the file domain.ext.txt containing exactly that group's URLs
joined by newlines. -/
theorem C8_groups_persisted (urls : List Str) (domain e : Str) (g : List Str)
    (perm : List (Str × Str))
    (hl : lookupGroup (groupByExt urls) e = g) (hg : g ≠ [])
    (hperm : perm.Perm (writeOps urls domain)) :
    runWrites perm (fileName domain e) = some (joinLines g)
    ∧ (∀ u : Str, extractExt u = none → ∀ x : Str, u ∉ lookupGroup (groupByExt urls) x)
    ∧ (∀ l : Str, (extractExt l).isSome = true ↔ HasExt l) := by
  refine ⟨writes_lookup_eq urls domain e g perm hl hg hperm, ?_, extract_isSome_iff⟩
  intro u hu x hmem
  rw [group_eq_filter] at hmem
  have hp := List.of_mem_filter hmem
  rw [decide_eq_true_eq, hu] at hp
  exact Option.noConfusion hp

theorem C8_groups_persisted_witness :
    (lookupGroup (groupByExt ["http://a.com/x.pdf".data, "http://a.com/z.pdf?v=2".data])
        "pdf".data
        = ["http://a.com/x.pdf".data, "http://a.com/z.pdf?v=2".data]
      ∧ (["http://a.com/x.pdf".data, "http://a.com/z.pdf?v=2".data] : List Str) ≠ [])
    ∧ (runWrites
         (writeOps ["http://a.com/x.pdf".data, "http://a.com/z.pdf?v=2".data] "a.com".data)
         (fileName "a.com".data "pdf".data)
         = some (joinLines ["http://a.com/x.pdf".data, "http://a.com/z.pdf?v=2".data])
       ∧ (∀ u : Str, extractExt u = none → ∀ x : Str,
            u ∉ lookupGroup
                (groupByExt ["http://a.com/x.pdf".data, "http://a.com/z.pdf?v=2".data]) x)
       ∧ (∀ l : Str, (extractExt l).isSome = true ↔ HasExt l)) :=
  ⟨⟨by decide, by decide⟩,
   C8_groups_persisted ["http://a.com/x.pdf".data, "http://a.com/z.pdf?v=2".data]
     "a.com".data "pdf".data ["http://a.com/x.pdf".data, "http://a.com/z.pdf?v=2".data]
     (writeOps ["http://a.com/x.pdf".data, "http://a.com/z.pdf?v=2".data] "a.com".data)
     (by decide) (by decide) (List.Perm.refl _)⟩

/-- C10: the filter output is a sublist of the input lines in their original
relative order, each extension group lists its URLs in the relative order of
the aggregator's input sequence, and the file written for a nonempty group
contains exactly those URLs in that order. -/
theorem C10_order_preservation (data : Str) (exts : List Str) (urls : List Str)
    (domain e : Str)
    (hne : urls.filter (fun u => decide (extractExt u = some e)) ≠ []) :
    (filterURLs data exts).Sublist (splitLines data)
    ∧ lookupGroup (groupByExt urls) e
        = urls.filter (fun u => decide (extractExt u = some e))
    ∧ runWrites (writeOps urls domain) (fileName domain e)
        = some (joinLines (urls.filter (fun u => decide (extractExt u = some e)))) := by
  refine ⟨List.filter_sublist _, group_eq_filter urls e, ?_⟩
  exact writes_lookup_eq urls domain e _ _ (group_eq_filter urls e) hne (List.Perm.refl _)

theorem C10_order_preservation_witness :
    ((["b.pdf".data, "a.txt".data, "c.pdf".data].filter
        (fun u => decide (extractExt u = some "pdf".data)) : List Str) ≠ [])
    ∧ ((filterURLs "x".data []).Sublist (splitLines "x".data)
       ∧ lookupGroup (groupByExt ["b.pdf".data, "a.txt".data, "c.pdf".data]) "pdf".data
           = ["b.pdf".data, "a.txt".data, "c.pdf".data].filter
               (fun u => decide (extractExt u = some "pdf".data))
       ∧ runWrites (writeOps ["b.pdf".data, "a.txt".data, "c.pdf".data] "d.com".data)
           (fileName "d.com".data "pdf".data)
           = some (joinLines (["b.pdf".data, "a.txt".data, "c.pdf".data].filter
               (fun u => decide (extractExt u = some "pdf".data))))) :=
  ⟨by decide,
   C10_order_preservation "x".data [] ["b.pdf".data, "a.txt".data, "c.pdf".data]
     "d.com".data "pdf".data (by decide)⟩
